import Mathlib

set_option maxHeartbeats 1000000

/-!
Shallow embedding of `wyze-bridge.py`, an installer/updater for the
docker-wyze-bridge application and its mediamtx media-relay dependency.
Pure string manipulation is modelled on `List Char`; the effectful routines
are modelled as functions that return the value the Python code computes
together with a trace of the claim-relevant side effects.  External inputs
(HTTP responses, subprocess output, file contents) are parameters.
-/

/-- Python `sub in s` (substring test) on character lists: some suffix of the
text starts with `sub`. -/
def isInfixCh (sub : List Char) : List Char → Bool
  | [] => sub.isEmpty
  | c :: cs => sub.isPrefixOf (c :: cs) || isInfixCh sub cs

/-- Python `sub in s` (substring test) for strings. -/
def pyContains (sub s : String) : Bool := isInfixCh sub.toList s.toList

/-- Python `str.split(sep)` on character lists (no maxsplit).
Mirrors CPython: splitting the empty string yields one empty part. -/
def splitCh (sep : Char) : List Char → List (List Char)
  | [] => [[]]
  | c :: cs =>
    if c = sep then [] :: splitCh sep cs
    else
      match splitCh sep cs with
      | [] => [[c]]
      | t :: ts => (c :: t) :: ts

/-- Python `str.split(sep, n)` on character lists: at most `n` splits,
the remainder after the nth separator is kept as one chunk. -/
def splitChAtMost (sep : Char) : Nat → List Char → List (List Char)
  | _, [] => [[]]
  | n, c :: cs =>
    match n with
    | 0 => [c :: cs]
    | n + 1 =>
      if c = sep then [] :: splitChAtMost sep n cs
      else
        match splitChAtMost sep (n + 1) cs with
        | [] => [[c]]
        | t :: ts => (c :: t) :: ts

/-- Join segments back with a separator (left inverse of `splitCh`). -/
def joinSegs (sep : Char) : List (List Char) → List Char
  | [] => []
  | [l] => l
  | l :: ls => l ++ sep :: joinSegs sep ls

/-- Python `file.readlines()`: split file bytes into lines, each keeping its
trailing newline; a final run without a newline is kept as a last line. -/
def readlinesCh : List Char → List (List Char)
  | [] => []
  | c :: cs =>
    if c = '\n' then ['\n'] :: readlinesCh cs
    else
      match readlinesCh cs with
      | [] => [[c]]
      | t :: ts => (c :: t) :: ts

/-- Python `str.strip()` (whitespace from both ends) on character lists. -/
def trimCh (l : List Char) : List Char :=
  ((l.dropWhile Char.isWhitespace).reverse.dropWhile Char.isWhitespace).reverse

/-- Python `str.lstrip(c)` on character lists. -/
def lstripCh (c : Char) (l : List Char) : List Char := l.dropWhile (· = c)

/-- Python `str.strip(c)` on character lists. -/
def stripCh (c : Char) (l : List Char) : List Char :=
  ((l.dropWhile (· = c)).reverse.dropWhile (· = c)).reverse

/-- `tag_name.lstrip('v')` as applied to release tags. -/
def lstripV (s : String) : String := String.mk (lstripCh 'v' s.toList)

/-- `tag_name.strip('v')` as applied to release tags in `run_update`. -/
def stripV (s : String) : String := String.mk (stripCh 'v' s.toList)

/-- One entry of the JSON array returned by the releases-list endpoint;
only the fields `fetch_release_url` reads. -/
structure Release where
  name : String
  tag_name : String
  url : String
deriving DecidableEq

/-- One page of the paginated releases list: the decoded body and the
`link` response header (`response.headers.get('link', '')`). -/
structure Page where
  releases : List Release
  link : String
deriving DecidableEq

/-- One element of a release's `assets` array. -/
structure Asset where
  name : String
  browser_download_url : String
deriving DecidableEq

/-- The decoded body of a single-release endpoint; `assets = none` models a
JSON object without an `"assets"` key. -/
structure ReleaseInfo where
  tag_name : String
  tarball_url : String
  assets : Option (List Asset)
deriving DecidableEq

/-- The dict `get_release` returns on success. -/
structure Descriptor where
  tag_name : String
  tarball : String
deriving DecidableEq

/-- Match test of `fetch_release_url` (line 232):
`release["name"] == version or release["tag_name"] in [version, f"v{version}"]`. -/
def releaseMatches (version : String) (r : Release) : Bool :=
  r.name == version || (r.tag_name == version || r.tag_name == "v" ++ version)

/-- Outcome of `fetch_release_url`: the URL, or the `Unable to locate release`
exception path (print + `sys.exit(1)`), or a transport failure (`urlopen`
raising, also print + `sys.exit(1)`). -/
inductive FetchResult
  | ok (url : String)
  | notFound
  | transport
deriving DecidableEq

/-- The `while "next" in response.headers.get('link', '')` loop of
`fetch_release_url` (lines 229-237).  The input list holds the successive
responses the pagination walk would produce: the head is the current
response, the tail the responses behind its link header.  A page is scanned
only when its own link header contains `"next"`; when it does not, the loop
exits and the function raises `Unable to locate release`.  Asking for a next
response when none exists models a failing `urlopen`. -/
def fetchPages (version : String) : List Page → FetchResult
  | [] => .transport
  | p :: rest =>
    if pyContains "next" p.link then
      match p.releases.find? (releaseMatches version) with
      | some r => .ok r.url
      | none => fetchPages version rest
    else .notFound

/-- `_Github.fetch_release_url` (lines 218-241): `"latest"` short-circuits to
the latest-release endpoint; any other token walks the paginated list. -/
def fetch_release_url (api version : String) (pages : List Page) : FetchResult :=
  if version = "latest" then .ok (api ++ "/releases/latest")
  else fetchPages version pages

/-- A well-formed pagination walk: at least one response, every response
except the last advertises a `"next"` link, the last one does not. -/
def chainWF : List Page → Bool
  | [] => false
  | [p] => !(pyContains "next" p.link)
  | p :: q :: rest => pyContains "next" p.link && chainWF (q :: rest)

/-- Asset selection of `get_release` (lines 253-258).  Python truthiness:
the asset branch runs only when the `"assets"` key is present and the
pattern is a non-empty string; inside it, the first asset whose name
contains the pattern is returned, and falling off the loop returns `None`. -/
def select_asset (info : ReleaseInfo) (asset_pattern : Option String) : Option Descriptor :=
  match info.assets, asset_pattern with
  | some as_, some p =>
    if p = "" then some ⟨info.tag_name, info.tarball_url⟩
    else
      match as_.find? (fun a => pyContains p a.name) with
      | some a => some ⟨info.tag_name, a.browser_download_url⟩
      | none => none
  | _, _ => some ⟨info.tag_name, info.tarball_url⟩

/-- Result of `_Github.get_release`: `found` carries the returned dict,
`noAsset` is the implicit `None` fall-through, the rest propagate
`fetch_release_url` failures (each of which exits the process). -/
inductive ReleaseResult
  | found (d : Descriptor)
  | noAsset
  | notFound
  | transport
deriving DecidableEq

/-- `_Github.get_release` (lines 243-266): resolve the release URL, fetch it
(`releaseAt` maps the URL to the decoded body), then select the asset. -/
def get_release (api version : String) (pages : List Page)
    (releaseAt : String → ReleaseInfo) (asset_pattern : Option String) : ReleaseResult :=
  match fetch_release_url api version pages with
  | .ok url =>
    match select_asset (releaseAt url) asset_pattern with
    | some d => .found d
    | none => .noAsset
  | .notFound => .notFound
  | .transport => .transport

/-- Download events of the resolution pipeline. -/
inductive GhEv
  | download (url : String)
deriving DecidableEq

/-- The resolve-then-download sequence of `install_docker_wyze_bridge_app`
(lines 357-364): `download_file` runs only after `get_release` has returned a
dict; every failure inside `get_release` exits the process first. -/
def resolve_and_download (api version : String) (pages : List Page)
    (releaseAt : String → ReleaseInfo) : ReleaseResult × List GhEv :=
  match get_release api version pages releaseAt none with
  | .found d => (.found d, [GhEv.download d.tarball])
  | r => (r, [])

/-- The member-name rewrite of `extract_tarball` (lines 184-186):
`member.name.split('/', strip_dirs)[-1]`. -/
def stripName (strip_dirs : Nat) (name : List Char) : List Char :=
  (splitChAtMost '/' strip_dirs name).getLastD []

/-- `_FilesystemActions.extract_tarball` (lines 179-189), modelled on the
stored member names: returns, in archive order, the pairs
(name the member is extracted under, original stored name).  A member is
skipped when a filter is given and its name does not contain it; the name is
rewritten only when the filter matched and `strip_dirs` is non-zero. -/
def extract_tarball (members : List (List Char)) (file_name_contains : Option (List Char))
    (strip_dirs : Nat) : List (List Char × List Char) :=
  members.filterMap fun m =>
    match file_name_contains with
    | some f =>
      if isInfixCh f m then
        some ((if strip_dirs ≠ 0 then stripName strip_dirs m else m), m)
      else none
    | none => some (m, m)

/-- Modelled from the spec's words for C5: "its original path with its first
N slash-delimited segments removed" — drop the first `n` segments of the
path and rejoin the remainder with `/`. -/
def segmentsRemoved (n : Nat) (name : List Char) : List Char :=
  joinSegs '/' ((splitCh '/' name).drop n)

/-- The line `update_env_file` writes for a key/value pair:
`f"{key}={value}\n"`. -/
def envLine (key value : List Char) : List Char := key ++ '=' :: value ++ ['\n']

/-- The scan-replace-append loop of `update_env_file` (lines 623-634): the
first line starting with `key=` is replaced in place (then `break`), later
lines are untouched; with no match the new line is appended. -/
def upsertLines (key value : List Char) : List (List Char) → List (List Char)
  | [] => [envLine key value]
  | l :: ls =>
    if (key ++ ['=']).isPrefixOf l then envLine key value :: ls
    else l :: upsertLines key value ls

/-- `_WyzeBridgeInstallation.update_env_file` (lines 612-640) at the level of
file bytes: `readlines`, the scan-replace-append loop, then `writelines`
(plain concatenation).  The existence check / `sys.exit` when the file is
missing is outside this model: the file's bytes are the input. -/
def update_env_file (key value : List Char) (file : List Char) : List Char :=
  (upsertLines key value (readlinesCh file)).flatten

/-- Number of lines of the file that are "lines for `key`", i.e. start with
`key=` — the very test `update_env_file` scans with. -/
def keyLineCount (key : List Char) (file : List Char) : Nat :=
  (readlinesCh file).countP (fun l => (key ++ ['=']).isPrefixOf l)

/-- Side effects traced for `run_update` / `install_mediamtx`.  `backupArchive d`
is the creation of the tar archive of directory `d` by `backup` (lines
280-285, in loop order `install_path` then `/tokens`); `mtx…` events are the
mediamtx download-and-replace steps (lines 564-567); `mtxWriteEnvTag` is the
unconditional `update_env_file("MTX_TAG", …)` (line 572); the `app` events
come from the stale branch of `run_update` (lines 710-723). -/
inductive UpdEv
  | backupArchive (dir : String)
  | removeTree (path : String)
  | downloadApp
  | extractApp
  | writeEnvVersion
  | pipInstall
  | chownApp
  | mtxDownload
  | mtxExtract
  | mtxChown
  | mtxChmod
  | mtxWriteEnvTag
  | patchMtxPath
deriving DecidableEq

/-- `_WyzeBridgeInstallation.install_mediamtx` (lines 540-582).
`current` is the version reported by running the installed binary with
`--version` (`None` when the binary is absent or the probe failed); `tagName`
the resolved release tag; `env` the bytes of the installation's `.env` file.
Returns the `CHANGED` flag, the traced events, and the new `.env` bytes:
mismatch (Python `current_mtx_version != latest_mtx_tag`, where `None`
differs from every string) triggers download-and-replace; in both branches
`update_env_file("MTX_TAG", latest_mtx_tag)` runs afterwards. -/
def install_mediamtx (current : Option String) (tagName : String) (env : List Char) :
    Bool × List UpdEv × List Char :=
  let latest := lstripV tagName
  if current = some latest then
    (false, [UpdEv.mtxWriteEnvTag], update_env_file "MTX_TAG".toList latest.toList env)
  else
    (true,
      [UpdEv.mtxDownload, UpdEv.mtxExtract, UpdEv.mtxChown, UpdEv.mtxChmod, UpdEv.mtxWriteEnvTag],
      update_env_file "MTX_TAG".toList latest.toList env)

/-- `run_update` (lines 694-731).  `installed` is
`get_installed_dwb_version()` (`None` when no `VERSION` line was found),
`appTag` the resolved application tag, so `latest_ver_num = appTag.strip('v')`;
`mtxCurrent`/`mtxTag`/`env` feed `install_mediamtx`.  `none` models the
`sys.exit(1)` taken when the stripped tag is empty (`if not latest_ver_num`).
Returns the `DWB_UPDATED or MEDIAMTX_UPDATED` flag and the traced events in
program order: on a version mismatch, backup of the install directory and of
`/tokens`, then `rmtree`, then the download/extract/env-write of
`install_docker_wyze_bridge_app`, then pip install and chown; afterwards the
mediamtx events, and the path patch exactly when mediamtx changed. -/
def run_update (appPath : String) (installed : Option String) (appTag : String)
    (mtxCurrent : Option String) (mtxTag : String) (env : List Char) :
    Option (Bool × List UpdEv) :=
  let latest := stripV appTag
  if latest = "" then none
  else
    let app : Bool × List UpdEv :=
      if installed = some latest then (false, [])
      else
        (true,
          [UpdEv.backupArchive appPath, UpdEv.backupArchive "/tokens",
           UpdEv.removeTree appPath, UpdEv.downloadApp, UpdEv.extractApp,
           UpdEv.writeEnvVersion, UpdEv.pipInstall, UpdEv.chownApp])
    let mtx := install_mediamtx mtxCurrent mtxTag env
    some (app.1 || mtx.1,
      app.2 ++ mtx.2.1 ++ (if mtx.1 then [UpdEv.patchMtxPath] else []))

/-- The `_Config` attributes set in `__init__` (lines 49-58), in insertion
order, with their default values. -/
structure Config where
  APP_CONF : String
  APP_GUNICORN : Bool
  APP_IP : String
  APP_PATH : String
  APP_PORT : Nat
  APP_USER : String
  APP_VERSION : String
  MEDIA_MTX_VERSION : String
  MEDIA_MTX_PATH : String
  INSTALLATION_CONF : String
deriving DecidableEq

/-- The defaults assigned in `_Config.__init__`. -/
def defaultConfig : Config :=
  { APP_CONF := "/etc/wyze-bridge/app.env"
    APP_GUNICORN := false
    APP_IP := "0.0.0.0"
    APP_PATH := "/srv/wyze-bridge"
    APP_PORT := 5000
    APP_USER := "wyze"
    APP_VERSION := "latest"
    MEDIA_MTX_VERSION := "latest"
    MEDIA_MTX_PATH := "/srv/mediamtx"
    INSTALLATION_CONF := "/etc/wyze-bridge/install.json" }

/-- Outcome of a Python call: a value, or an uncaught exception (named by
its Python class) that propagates and aborts the invocation. -/
inductive PyResult (α : Type)
  | ok (a : α)
  | exn (name : String)
deriving DecidableEq

/-- Python call semantics for `_print_color(message, color)` (line 33): the
function has two required positional parameters, so a call supplying any
other number of arguments raises `TypeError` instead of printing. -/
def callPrintColor (args : List String) : PyResult Unit :=
  if args.length = 2 then .ok () else .exn "TypeError"

/-- `_Config.read_config_file` (lines 76-84).  `confFileExists` is
`os.path.isfile(INSTALLATION_CONF)`; `parsed` is the result of `json.load`:
`some apply` is a decoded object (applied to the config attribute-by-attribute
via `setattr`, abstracted as an update function), `none` a decode failure.
On the failure path the handler runs `_print_color(f"Unexpected error reading
from: {path}")` with a single argument — which raises `TypeError`; had it
printed, the following `for key, value in install_conf.items()` would still
raise `NameError`, `install_conf` being unbound. -/
def read_config_file (confFileExists : Bool) (parsed : Option (Config → Config))
    (cfg : Config) : PyResult Config :=
  if confFileExists then
    match parsed with
    | some apply => .ok (apply cfg)
    | none =>
      match callPrintColor ["Unexpected error reading from: " ++ cfg.INSTALLATION_CONF] with
      | .ok _ => .exn "NameError"
      | .exn e => .exn e

  else .ok cfg

/-- `_Config.get_description` (lines 61-74): the description table; a key
outside it raises `KeyError`, modelled as `none` (every caller catches it
and skips the field). -/
def get_description (name : String) : Option String :=
  if name = "APP_CONF" then some "Path to env file containing docker-wyze-bridge settings."
  else if name = "APP_IP" then some "IP address on which docker-wyze-bridge will listen."
  else if name = "APP_PATH" then some "Location of docker-wyze-bridge application."
  else if name = "APP_PORT" then some "Port on which docker-wyze-bridge will listen."
  else if name = "APP_USER" then some "User account used to run the docker-wyze-bridge."
  else if name = "APP_VERSION" then some "Version of docker-wyze-bridge to install."
  else if name = "APP_GUNICORN" then some "Use Gunicorn for frontend service."
  else if name = "MEDIA_MTX_VERSION" then some "Version of mediamtx to install."
  else if name = "MEDIA_MTX_PATH" then some "Location of mediamtx application."
  else if name = "INSTALLATION_CONF" then
    some "Path to file containing settings of this script, used for updates."
  else none

/-- Python `str(b)` for booleans. -/
def pyStrBool (b : Bool) : String := if b then "True" else "False"

/-- `self.__dict__.items()` of a `_Config` instance: the attributes in
insertion order with the Python string rendering of their values. -/
def configItems (c : Config) : List (String × String) :=
  [("APP_CONF", c.APP_CONF),
   ("APP_GUNICORN", pyStrBool c.APP_GUNICORN),
   ("APP_IP", c.APP_IP),
   ("APP_PATH", c.APP_PATH),
   ("APP_PORT", toString c.APP_PORT),
   ("APP_USER", c.APP_USER),
   ("APP_VERSION", c.APP_VERSION),
   ("MEDIA_MTX_VERSION", c.MEDIA_MTX_VERSION),
   ("MEDIA_MTX_PATH", c.MEDIA_MTX_PATH),
   ("INSTALLATION_CONF", c.INSTALLATION_CONF)]

/-- Observable effects of the `__main__` dispatch. -/
inductive MainEv
  | printLine (s : String)
  | writeFile (path : String)
deriving DecidableEq

/-- The positional `action` argument. -/
inductive CliAction
  | install
  | update
  | showSettings
deriving DecidableEq

/-- The `show-settings` loop (lines 749-755): for each config attribute with
a description, print the description and the `key = value` line; attributes
without one are skipped by the `except: continue`. -/
def show_settings_output (cfg : Config) : List MainEv :=
  (configItems cfg).flatMap fun kv =>
    match get_description kv.1 with
    | none => []
    | some desc => [MainEv.printLine ("# " ++ desc), MainEv.printLine (kv.1 ++ " = " ++ kv.2)]

/-- The `__main__` dispatch after argument parsing (lines 748-772), run as
root: the `show-settings` branch prints and calls `sys.exit(0)` before
`scriptConfig.write_config_file()` on line 758 is ever reached; the other
actions fall through to the config write (and continue with further effects
beyond this model's scope).  Returns exit status and traced events. -/
def main_dispatch (action : CliAction) (cfg : Config) : Nat × List MainEv :=
  match action with
  | .showSettings => (0, show_settings_output cfg)
  | _ => (0, [MainEv.writeFile cfg.INSTALLATION_CONF])

/-- The `'VERSION'` prefix tested by `get_installed_dwb_version`. -/
def versionKey : List Char := "VERSION".toList

/-- The line scan of `get_installed_dwb_version` (lines 348-351): the first
line starting with `VERSION` (not `VERSION=`) is taken and
`line.split('=')[1].strip()` returned; a line with no `=` at all would make
the `[1]` subscript raise `IndexError`. -/
def versionFromLines : List (List Char) → PyResult (Option (List Char))
  | [] => .ok none
  | l :: ls =>
    if versionKey.isPrefixOf l then
      match (splitCh '=' l).get? 1 with
      | some seg => .ok (some (trimCh seg))
      | none => .exn "IndexError"
    else versionFromLines ls

/-- `_WyzeBridgeInstallation.get_installed_dwb_version` (lines 346-352):
`none` models an absent `.env` file (the function returns `None`); otherwise
the file's lines are scanned. -/
def get_installed_dwb_version (envFile : Option (List (List Char))) :
    PyResult (Option (List Char)) :=
  match envFile with
  | none => .ok none
  | some lines => versionFromLines lines

/-- Modelled from the spec's words for C10: "the text between the first and
second `=` of that line" — everything after the first `=` up to the next
`=` or the end. -/
def specValueOfLine (l : List Char) : List Char :=
  ((l.dropWhile (· ≠ '=')).drop 1).takeWhile (· ≠ '=')

/-! Helper lemmas. -/

theorem isPrefixOf_append_self (l t : List Char) : l.isPrefixOf (l ++ t) = true := by
  induction l with
  | nil => simp [List.isPrefixOf]
  | cons a as ih => simp [List.isPrefixOf, ih]

theorem fetchPages_no_match (version : String) :
    ∀ pages, chainWF pages = true →
      (∀ p ∈ pages, ∀ r ∈ p.releases, releaseMatches version r = false) →
      fetchPages version pages = FetchResult.notFound := by
  intro pages
  induction pages with
  | nil => intro h _; simp [chainWF] at h
  | cons p rest ih =>
    intro hwf hnm
    cases rest with
    | nil =>
      simp [chainWF] at hwf
      simp [fetchPages, hwf]
    | cons q rest2 =>
      simp [chainWF] at hwf
      have hfind : p.releases.find? (releaseMatches version) = none :=
        List.find?_eq_none.mpr (fun r hr => by simp [hnm p (by simp) r hr])
      have hrec := ih hwf.2 (fun p2 hp2 r hr => hnm p2 (by simp [hp2]) r hr)
      have hstep : fetchPages version (p :: q :: rest2)
          = if pyContains "next" p.link then
              (match p.releases.find? (releaseMatches version) with
               | some r => FetchResult.ok r.url
               | none => fetchPages version (q :: rest2))
            else FetchResult.notFound := rfl
      rw [hstep, if_pos hwf.1, hfind]
      exact hrec

/-- C1 (code bug): the claim says that for a token equal to an existing
release's tag (here `"1.0"` against tag `"v1.0"`, not `"latest"`) the
resolver scans each page of the release list and returns the matching
release's URL.  The loop guard `while "next" in link` is checked before a
page is scanned, so a page without a `"next"` link — the last page, and in
particular the only page of a short release list, which carries no link
header at all — is never scanned: with the matching release sitting on that
single page, `fetch_release_url` raises `Unable to locate release` instead of
returning the URL. -/
theorem fetch_release_url_last_page_never_scanned :
    releaseMatches "1.0" ⟨"wyze bridge", "v1.0", "http://example/rel/1"⟩ = true ∧
    fetch_release_url "api" "1.0" [⟨[⟨"wyze bridge", "v1.0", "http://example/rel/1"⟩], ""⟩]
      = FetchResult.notFound := by
  constructor
  · decide
  · decide

/-- C2: for a version token (other than `"latest"`) matching no release on
any page of a well-formed pagination walk, `fetch_release_url` ends in the
`Unable to locate release` failure path after following the pagination links,
and the resolve-then-download pipeline of `install_docker_wyze_bridge_app`
performs no download before that failure. -/
theorem fetch_release_url_no_match_notFound
    (api version : String) (pages : List Page) (releaseAt : String → ReleaseInfo)
    (hv : version ≠ "latest") (hwf : chainWF pages = true)
    (hnm : ∀ p ∈ pages, ∀ r ∈ p.releases, releaseMatches version r = false) :
    fetch_release_url api version pages = FetchResult.notFound ∧
    resolve_and_download api version pages releaseAt = (ReleaseResult.notFound, []) := by
  have h1 : fetch_release_url api version pages = FetchResult.notFound := by
    unfold fetch_release_url
    rw [if_neg hv]
    exact fetchPages_no_match version pages hwf hnm
  refine ⟨h1, ?_⟩
  simp [resolve_and_download, get_release, h1]

/-- Witness for C2 at a concrete two-page walk holding only tag `v1.0`,
while version `9.9.9` is requested. -/
theorem fetch_release_url_no_match_notFound_witness :
    fetch_release_url "https://api.github.com/repos/mrlt8/docker-wyze-bridge" "9.9.9"
      [⟨[⟨"a", "v1.0", "u1"⟩], "x; rel=next"⟩, ⟨[⟨"b", "v0.9", "u0"⟩], ""⟩]
      = FetchResult.notFound ∧
    resolve_and_download "https://api.github.com/repos/mrlt8/docker-wyze-bridge" "9.9.9"
      [⟨[⟨"a", "v1.0", "u1"⟩], "x; rel=next"⟩, ⟨[⟨"b", "v0.9", "u0"⟩], ""⟩]
      (fun _ => ⟨"v1.0", "T", none⟩)
      = (ReleaseResult.notFound, []) :=
  fetch_release_url_no_match_notFound _ _ _ _ (by decide) (by decide) (by decide)

/-- C9: when the resolver has matched a release whose body carries a
non-empty `assets` array and a non-empty asset-name pattern is given but no
asset name contains it, `get_release` falls off the asset loop and returns
`None` — no fallback to the source tarball URL and no diagnostic. -/
theorem get_release_no_matching_asset
    (api version url p : String) (pages : List Page) (releaseAt : String → ReleaseInfo)
    (info : ReleaseInfo) (assets : List Asset)
    (hfetch : fetch_release_url api version pages = FetchResult.ok url)
    (hinfo : releaseAt url = info)
    (hassets : info.assets = some assets)
    (_hne : assets ≠ [])
    (hp : p ≠ "")
    (hnm : ∀ a ∈ assets, pyContains p a.name = false) :
    get_release api version pages releaseAt (some p) = ReleaseResult.noAsset := by
  have hfind : assets.find? (fun a => pyContains p a.name) = none :=
    List.find?_eq_none.mpr (fun a ha => by simp [hnm a ha])
  simp [get_release, hfetch, hinfo, select_asset, hassets, hp, hfind]

/-- Witness for C9: a release with one asset whose name does not contain the
requested `linux_amd64` pattern. -/
theorem get_release_no_matching_asset_witness :
    get_release "api" "1.0" [⟨[⟨"n", "v1.0", "REL"⟩], "rel=next"⟩]
      (fun _ => ⟨"v1.0", "TARBALL", some [⟨"mediamtx_v1.0_linux_arm.tar.gz", "U"⟩]⟩)
      (some "linux_amd64") = ReleaseResult.noAsset :=
  get_release_no_matching_asset "api" "1.0" "REL" "linux_amd64"
    [⟨[⟨"n", "v1.0", "REL"⟩], "rel=next"⟩]
    (fun _ => ⟨"v1.0", "TARBALL", some [⟨"mediamtx_v1.0_linux_arm.tar.gz", "U"⟩]⟩)
    ⟨"v1.0", "TARBALL", some [⟨"mediamtx_v1.0_linux_arm.tar.gz", "U"⟩]⟩
    [⟨"mediamtx_v1.0_linux_arm.tar.gz", "U"⟩]
    (by decide) rfl rfl (by decide) (by decide) (by decide)

/-- C7 (code bug): the claim says a malformed persisted-settings file is
reported and the invocation proceeds with defaults.  In the code the
`except` handler calls `_print_color` with one argument although it has two
required parameters, raising `TypeError`; even if it printed, the following
loop would hit the unbound `install_conf`.  Either way the uncaught
exception propagates out of `_Config.__init__` and aborts the invocation, so
with an existing config file whose content fails `json.load`, the result is
an exception, not the default configuration. -/
theorem read_config_file_malformed_aborts :
    read_config_file true none defaultConfig = PyResult.exn "TypeError" ∧
    read_config_file true none defaultConfig ≠ PyResult.ok defaultConfig := by
  constructor
  · decide
  · decide

theorem splitCh_cons (sep : Char) (l : List Char) : ∃ t ts, splitCh sep l = t :: ts := by
  cases l with
  | nil => exact ⟨[], [], rfl⟩
  | cons c cs =>
    by_cases hc : c = sep
    · exact ⟨[], splitCh sep cs, by simp [splitCh, hc]⟩
    · cases hsp : splitCh sep cs with
      | nil => exact ⟨[c], [], by simp [splitCh, hc, hsp]⟩
      | cons t ts => exact ⟨c :: t, ts, by simp [splitCh, hc, hsp]⟩

theorem splitCh_head (sep : Char) :
    ∀ l : List Char, (splitCh sep l).get? 0 = some (l.takeWhile (· ≠ sep)) := by
  intro l
  induction l with
  | nil => simp [splitCh]
  | cons c cs ih =>
    by_cases hc : c = sep
    · subst hc
      simp [splitCh, List.takeWhile_cons]
    · obtain ⟨t, ts, hts⟩ := splitCh_cons sep cs
      rw [hts] at ih
      simp at ih
      simp [splitCh, hc, hts, List.takeWhile_cons, ih]

theorem splitCh_get1 (sep : Char) :
    ∀ l : List Char, sep ∈ l →
      (splitCh sep l).get? 1
        = some (((l.dropWhile (· ≠ sep)).drop 1).takeWhile (· ≠ sep)) := by
  intro l
  induction l with
  | nil => intro h; simp at h
  | cons c cs ih =>
    intro h
    by_cases hc : c = sep
    · subst hc
      simp [splitCh, List.dropWhile_cons]
      simpa using splitCh_head c cs
    · have hmem : sep ∈ cs := by
        rcases List.mem_cons.mp h with h1 | h1
        · exact absurd h1.symm hc
        · exact h1
      obtain ⟨t, ts, hts⟩ := splitCh_cons sep cs
      have h2 := ih hmem
      rw [hts] at h2
      simp at h2
      simp [splitCh, hc, hts, List.dropWhile_cons]
      simpa using h2

theorem versionFromLines_no_match :
    ∀ lines, (∀ l ∈ lines, versionKey.isPrefixOf l = false) →
      versionFromLines lines = PyResult.ok none := by
  intro lines
  induction lines with
  | nil => intro _; rfl
  | cons l ls ih =>
    intro h
    have h1 := h l (by simp)
    simp [versionFromLines, h1]
    exact ih (fun l2 hl2 => h l2 (by simp [hl2]))

theorem versionFromLines_first_match :
    ∀ pre (l : List Char) post,
      (∀ l2 ∈ pre, versionKey.isPrefixOf l2 = false) →
      versionKey.isPrefixOf l = true → '=' ∈ l →
      versionFromLines (pre ++ l :: post)
        = PyResult.ok (some (trimCh (specValueOfLine l))) := by
  intro pre
  induction pre with
  | nil =>
    intro l post _ hpf heq
    have h1 := splitCh_get1 '=' l heq
    simp at h1
    simp [versionFromLines, hpf, h1, specValueOfLine]
  | cons q qs ih =>
    intro l post hpre hpf heq
    have hq := hpre q (by simp)
    simp [versionFromLines, hq]
    exact ih l post (fun l2 h2 => hpre l2 (by simp [h2])) hpf heq

/-- C10: `get_installed_dwb_version` returns the value of the first line of
the environment file whose text starts with the prefix `VERSION` (not the
full key `VERSION=`, so a preceding `VERSION_EXTRA=…` line is matched
first); the returned value is the stripped text between the first and second
`=` of that line (so a stored value containing `=` is truncated at its first
`=`); if no such line exists, or the file is absent, it returns `None`.
(The line is assumed to contain an `=`; a prefix-matching line without one
would make the code's `split('=')[1]` subscript raise.) -/
theorem get_installed_dwb_version_spec (envFile : Option (List (List Char))) :
    (envFile = none → get_installed_dwb_version envFile = PyResult.ok none) ∧
    (∀ lines, envFile = some lines →
      ((∀ l ∈ lines, versionKey.isPrefixOf l = false) →
        get_installed_dwb_version envFile = PyResult.ok none) ∧
      (∀ pre l post, lines = pre ++ l :: post →
        (∀ l2 ∈ pre, versionKey.isPrefixOf l2 = false) →
        versionKey.isPrefixOf l = true → '=' ∈ l →
        get_installed_dwb_version envFile
          = PyResult.ok (some (trimCh (specValueOfLine l))))) := by
  constructor
  · intro h; subst h; rfl
  · intro lines h
    subst h
    constructor
    · intro hnm
      exact versionFromLines_no_match lines hnm
    · intro pre l post hsplit hpre hpf heq
      subst hsplit
      exact versionFromLines_first_match pre l post hpre hpf heq

/-- Witness for C10: with lines `VERSION_EXTRA=x` then `VERSION=1.0`, the
first `VERSION`-prefixed line wins and its value is `x`. -/
theorem get_installed_dwb_version_spec_witness :
    get_installed_dwb_version (some ["VERSION_EXTRA=x\n".toList, "VERSION=1.0\n".toList])
      = PyResult.ok (some (trimCh (specValueOfLine "VERSION_EXTRA=x\n".toList))) ∧
    trimCh (specValueOfLine "VERSION_EXTRA=x\n".toList) = "x".toList := by
  constructor
  · exact ((get_installed_dwb_version_spec
        (some ["VERSION_EXTRA=x\n".toList, "VERSION=1.0\n".toList])).2
        ["VERSION_EXTRA=x\n".toList, "VERSION=1.0\n".toList] rfl).2
      [] "VERSION_EXTRA=x\n".toList ["VERSION=1.0\n".toList] rfl
      (by decide) (by decide) (by decide)
  · decide

/-- C8: under the `show-settings` action (run as root), for every attribute
of the configuration object the dispatch prints the attribute's description
and its `key = value` line, exits with status 0, and emits no disk write —
in particular the persisted settings file is not written, `sys.exit(0)`
running before `write_config_file()` is reached. -/
theorem show_settings_spec (cfg : Config) (k v : String)
    (hkv : (k, v) ∈ configItems cfg) :
    (main_dispatch CliAction.showSettings cfg).1 = 0 ∧
    (∀ p, MainEv.writeFile p ∉ (main_dispatch CliAction.showSettings cfg).2) ∧
    ∃ d, get_description k = some d ∧
      MainEv.printLine ("# " ++ d) ∈ (main_dispatch CliAction.showSettings cfg).2 ∧
      MainEv.printLine (k ++ " = " ++ v) ∈ (main_dispatch CliAction.showSettings cfg).2 := by
  refine ⟨rfl, ?_, ?_⟩
  · intro p
    simp [main_dispatch, show_settings_output, configItems, get_description]
  · fin_cases hkv <;>
    · refine ⟨_, rfl, ?_, ?_⟩ <;>
        simp [main_dispatch, show_settings_output, configItems, get_description]

/-- Witness for C8 at the default configuration and the `APP_PATH` field. -/
theorem show_settings_spec_witness :
    (main_dispatch CliAction.showSettings defaultConfig).1 = 0 ∧
    MainEv.printLine ("APP_PATH" ++ " = " ++ "/srv/wyze-bridge")
      ∈ (main_dispatch CliAction.showSettings defaultConfig).2 := by
  have h := show_settings_spec defaultConfig "APP_PATH" "/srv/wyze-bridge" (by decide)
  obtain ⟨h0, _, d, _, _, h3⟩ := h
  exact ⟨h0, h3⟩

/-- C3: under the update action, when the installed version string equals
the resolved target (`tag.strip('v')`), the trace contains no application
extraction, no backup-archive creation and no directory removal; when they
differ, the trace starts with the backup of the install directory and of
`/tokens`, strictly before the removal of the install directory, which in
turn precedes the download and extraction of the new version. -/
theorem run_update_version_reconciliation
    (appPath : String) (installed : Option String) (appTag : String)
    (mtxCurrent : Option String) (mtxTag : String) (env : List Char)
    (flag : Bool) (evs : List UpdEv)
    (hrun : run_update appPath installed appTag mtxCurrent mtxTag env = some (flag, evs)) :
    (installed = some (stripV appTag) →
      UpdEv.extractApp ∉ evs ∧ (∀ d, UpdEv.backupArchive d ∉ evs) ∧
      (∀ p, UpdEv.removeTree p ∉ evs)) ∧
    (installed ≠ some (stripV appTag) →
      ∃ rest, evs = UpdEv.backupArchive appPath :: UpdEv.backupArchive "/tokens" ::
        UpdEv.removeTree appPath :: UpdEv.downloadApp :: UpdEv.extractApp :: rest) := by
  by_cases hlat : stripV appTag = ""
  · simp [run_update, hlat] at hrun
  · constructor
    · intro hin
      by_cases hmtx : mtxCurrent = some (lstripV mtxTag)
      · simp [run_update, hlat, hin, install_mediamtx, hmtx] at hrun
        obtain ⟨h1, h2⟩ := hrun
        subst h2
        simp
      · simp [run_update, hlat, hin, install_mediamtx, hmtx] at hrun
        obtain ⟨h1, h2⟩ := hrun
        subst h2
        simp
    · intro hin
      by_cases hmtx : mtxCurrent = some (lstripV mtxTag)
      · simp [run_update, hlat, hin, install_mediamtx, hmtx] at hrun
        obtain ⟨h1, h2⟩ := hrun
        subst h2
        exact ⟨_, rfl⟩
      · simp [run_update, hlat, hin, install_mediamtx, hmtx] at hrun
        obtain ⟨h1, h2⟩ := hrun
        subst h2
        exact ⟨_, rfl⟩

/-- Witness for C3: installed `1.0.0` equals target tag `v1.0.0` stripped,
so the trace (here only the unconditional mediamtx env write) has no
application extraction, backup or removal. -/
theorem run_update_version_reconciliation_witness :
    run_update "/srv/wyze-bridge" (some "1.0.0") "v1.0.0" (some "1.1.1") "v1.1.1"
      "MTX_TAG=1.1.1\n".toList = some (false, [UpdEv.mtxWriteEnvTag]) ∧
    UpdEv.extractApp ∉ [UpdEv.mtxWriteEnvTag] := by
  refine ⟨by decide, ?_⟩
  exact ((run_update_version_reconciliation "/srv/wyze-bridge" (some "1.0.0") "v1.0.0"
    (some "1.1.1") "v1.1.1" "MTX_TAG=1.1.1\n".toList false [UpdEv.mtxWriteEnvTag]
    (by decide)).1 (by decide)).1

/-- Counterexample for C6: with the reported binary version equal to the
resolved tag (`1.2.3` vs `v1.2.3`), the claim says the operation
short-circuits with no filesystem changes; but `update_env_file("MTX_TAG", …)`
runs unconditionally (line 572), and on an `.env` file lacking an `MTX_TAG`
line it rewrites the file with a new line appended — a filesystem change on
the equality path. -/
theorem install_mediamtx_counterexample :
    (install_mediamtx (some "1.2.3") "v1.2.3" "WB_AUTH=True\n".toList).1 = false ∧
    (install_mediamtx (some "1.2.3") "v1.2.3" "WB_AUTH=True\n".toList).2.2
      ≠ "WB_AUTH=True\n".toList := by
  constructor
  · decide
  · decide

/-- C6 (amended): when the reported binary version equals the resolved tag
(`tag.lstrip('v')`), the download-and-replace of the binary is skipped (no
download, extraction, chown or chmod event) but the installation's `.env`
file is still rewritten with `MTX_TAG=<tag>`; a mismatch — including an
absent binary — triggers download-and-replace; the returned flag is true
exactly on mismatch, and `run_update` runs the dependent path-patch step iff
that flag is true. -/
theorem install_mediamtx_spec
    (current : Option String) (tagName : String) (env : List Char) :
    ((install_mediamtx current tagName env).1 = true ↔ current ≠ some (lstripV tagName)) ∧
    (current = some (lstripV tagName) →
      UpdEv.mtxDownload ∉ (install_mediamtx current tagName env).2.1 ∧
      UpdEv.mtxExtract ∉ (install_mediamtx current tagName env).2.1 ∧
      UpdEv.mtxChown ∉ (install_mediamtx current tagName env).2.1 ∧
      UpdEv.mtxChmod ∉ (install_mediamtx current tagName env).2.1) ∧
    (current ≠ some (lstripV tagName) →
      UpdEv.mtxDownload ∈ (install_mediamtx current tagName env).2.1 ∧
      UpdEv.mtxExtract ∈ (install_mediamtx current tagName env).2.1) ∧
    ((install_mediamtx current tagName env).2.2
      = update_env_file "MTX_TAG".toList (lstripV tagName).toList env) ∧
    (∀ appPath installed appTag flag evs,
      run_update appPath installed appTag current tagName env = some (flag, evs) →
      (UpdEv.patchMtxPath ∈ evs ↔ (install_mediamtx current tagName env).1 = true)) := by
  by_cases hc : current = some (lstripV tagName)
  · refine ⟨by simp [install_mediamtx, hc], fun _ => by simp [install_mediamtx, hc],
      fun h => absurd hc h, by simp [install_mediamtx, hc], ?_⟩
    intro appPath installed appTag flag evs hrun
    by_cases hlat : stripV appTag = ""
    · simp [run_update, hlat] at hrun
    · by_cases hin : installed = some (stripV appTag) <;>
      · simp [run_update, hlat, hin, install_mediamtx, hc] at hrun
        obtain ⟨h1, h2⟩ := hrun
        subst h2
        simp [install_mediamtx, hc]
  · refine ⟨by simp [install_mediamtx, hc], fun h => absurd h hc,
      fun _ => by simp [install_mediamtx, hc], by simp [install_mediamtx, hc], ?_⟩
    intro appPath installed appTag flag evs hrun
    by_cases hlat : stripV appTag = ""
    · simp [run_update, hlat] at hrun
    · by_cases hin : installed = some (stripV appTag) <;>
      · simp [run_update, hlat, hin, install_mediamtx, hc] at hrun
        obtain ⟨h1, h2⟩ := hrun
        subst h2
        simp [install_mediamtx, hc]

/-- Witness for C6: absent binary (`None`) against tag `v1.0.0`: the flag is
true, download and extraction happen, and in a `run_update` trace where the
application itself is already current the path patch runs because (and only
because) mediamtx changed. -/
theorem install_mediamtx_spec_witness :
    (install_mediamtx none "v1.0.0" []).1 = true ∧
    UpdEv.mtxDownload ∈ (install_mediamtx none "v1.0.0" []).2.1 ∧
    (UpdEv.patchMtxPath
        ∈ [UpdEv.mtxDownload, UpdEv.mtxExtract, UpdEv.mtxChown, UpdEv.mtxChmod,
           UpdEv.mtxWriteEnvTag, UpdEv.patchMtxPath]
      ↔ (install_mediamtx none "v1.0.0" []).1 = true) := by
  have h := install_mediamtx_spec none "v1.0.0" []
  refine ⟨h.1.mpr (by decide), (h.2.2.1 (by decide)).1, ?_⟩
  exact h.2.2.2.2 "/srv/wyze-bridge" (some "2.0.0") "v2.0.0" true
    [UpdEv.mtxDownload, UpdEv.mtxExtract, UpdEv.mtxChown, UpdEv.mtxChmod,
     UpdEv.mtxWriteEnvTag, UpdEv.patchMtxPath] (by decide)

theorem joinSegs_cons2 (sep : Char) (a b : List Char) (ts : List (List Char)) :
    joinSegs sep (a :: b :: ts) = a ++ sep :: joinSegs sep (b :: ts) := rfl

theorem joinSegs_splitCh (sep : Char) : ∀ l : List Char, joinSegs sep (splitCh sep l) = l := by
  intro l
  induction l with
  | nil => rfl
  | cons c cs ih =>
    obtain ⟨t, ts, hts⟩ := splitCh_cons sep cs
    rw [hts] at ih
    by_cases hc : c = sep
    · have hsp : splitCh sep (c :: cs) = [] :: t :: ts := by simp [splitCh, hc, hts]
      rw [hsp, joinSegs_cons2, ih]
      simp [hc]
    · have hsp : splitCh sep (c :: cs) = (c :: t) :: ts := by simp [splitCh, hc, hts]
      rw [hsp]
      cases ts with
      | nil =>
        simp [joinSegs] at ih ⊢
        exact ih
      | cons u us =>
        rw [joinSegs_cons2]
        rw [joinSegs_cons2] at ih
        rw [List.cons_append, ih]

theorem splitChAtMost_eq (sep : Char) :
    ∀ (l : List Char) (n : Nat), n < (splitCh sep l).length →
      splitChAtMost sep n l
        = (splitCh sep l).take n ++ [joinSegs sep ((splitCh sep l).drop n)] := by
  intro l
  induction l with
  | nil =>
    intro n hn
    have h0 : n = 0 := by simp [splitCh] at hn; omega
    subst h0
    simp [splitChAtMost, splitCh, joinSegs]
  | cons c cs ih =>
    intro n hn
    cases n with
    | zero =>
      have hsp0 : splitChAtMost sep 0 (c :: cs) = [c :: cs] := rfl
      rw [hsp0]
      simp only [List.take_zero, List.drop_zero, List.nil_append]
      rw [joinSegs_splitCh]
    | succ m =>
      by_cases hc : c = sep
      · have hn2 : m < (splitCh sep cs).length := by
          simp [splitCh, hc] at hn
          omega
        have hstep : splitChAtMost sep (m + 1) (c :: cs) = [] :: splitChAtMost sep m cs := by
          conv_lhs => rw [splitChAtMost]
          rw [if_pos hc]
        have hsp : splitCh sep (c :: cs) = [] :: splitCh sep cs := by simp [splitCh, hc]
        rw [hstep, hsp, ih m hn2]
        simp
      · obtain ⟨t, ts, hts⟩ := splitCh_cons sep cs
        have hsp : splitCh sep (c :: cs) = (c :: t) :: ts := by simp [splitCh, hc, hts]
        have hn2 : m + 1 < (splitCh sep cs).length := by
          rw [hts]
          rw [hsp] at hn
          simpa using hn
        have hih := ih (m + 1) hn2
        rw [hts] at hih
        simp only [List.take_succ_cons, List.drop_succ_cons] at hih
        have hstep : splitChAtMost sep (m + 1) (c :: cs)
            = match splitChAtMost sep (m + 1) cs with
              | [] => [[c]]
              | t2 :: ts2 => (c :: t2) :: ts2 := by
          conv_lhs => rw [splitChAtMost]
          rw [if_neg hc]
        rw [hstep, hih, hsp]
        simp [List.take_succ_cons, List.drop_succ_cons]

theorem getLastD_append_single (l : List (List Char)) (b d : List Char) :
    (l ++ [b]).getLastD d = b := by
  induction l generalizing d with
  | nil => rfl
  | cons a as ih =>
    rw [List.cons_append, List.getLastD_cons]
    exact ih a

theorem stripName_eq_segmentsRemoved (n : Nat) (name : List Char)
    (h : n < (splitCh '/' name).length) :
    stripName n name = segmentsRemoved n name := by
  unfold stripName segmentsRemoved
  rw [splitChAtMost_eq '/' name n h]
  exact getLastD_append_single _ _ _

/-- Counterexample for C5: with filter `a` and `strip_dirs = 2`, member
`abc` (which contains `a` but has fewer than three slash-delimited segments)
is extracted under its unchanged name `abc`, while "its original path with
its first 2 slash-delimited segments removed" is the empty path — Python's
`split('/', 2)[-1]` keeps the final chunk when there are not enough
separators to strip. -/
theorem extract_tarball_counterexample :
    (("abc".toList, "abc".toList)
        ∈ extract_tarball ["abc".toList] (some "a".toList) 2) ∧
    segmentsRemoved 2 "abc".toList ≠ "abc".toList := by
  constructor
  · decide
  · decide

/-- C5 (amended): for extraction with a name filter `F` and
`stripLeadingSegments = N > 0`, every extracted member's original stored
path contained `F`, members whose path does not contain `F` are not
extracted, and every extracted member's final path is
`split('/', N)[-1]` of its original path — which equals the original path
with its first `N` slash-delimited segments removed whenever the path has
more than `N` segments (otherwise it is the path's final chunk). -/
theorem extract_tarball_strip_spec
    (members : List (List Char)) (f : List Char) (n : Nat) (fin orig : List Char)
    (hn : 0 < n) :
    ((fin, orig) ∈ extract_tarball members (some f) n →
      isInfixCh f orig = true ∧ fin = stripName n orig ∧
      (n < (splitCh '/' orig).length → fin = segmentsRemoved n orig)) ∧
    (isInfixCh f orig = false → (fin, orig) ∉ extract_tarball members (some f) n) := by
  have hn0 : n ≠ 0 := Nat.pos_iff_ne_zero.mp hn
  constructor
  · intro hmem
    obtain ⟨m, hm, hsome⟩ := List.mem_filterMap.mp hmem
    by_cases hin : isInfixCh f m
    · simp only [hin, hn0, if_true, ite_true, if_pos] at hsome
      simp [hn0] at hsome
      obtain ⟨hfin, horig⟩ := hsome
      subst horig
      subst hfin
      exact ⟨hin, rfl, fun h => stripName_eq_segmentsRemoved n m h⟩
    · simp [hin] at hsome
  · intro hninf hmem
    obtain ⟨m, hm, hsome⟩ := List.mem_filterMap.mp hmem
    by_cases hin : isInfixCh f m
    · simp [hin, hn0] at hsome
      obtain ⟨hfin, horig⟩ := hsome
      subst horig
      rw [hninf] at hin
      exact Bool.false_ne_true hin
    · simp [hin] at hsome

/-- Witness for C5: the real invocation shape
(filter `/app/`, two segments stripped): `repo/app/x.py` is extracted as
`x.py`, which is also the spec's "first two segments removed". -/
theorem extract_tarball_strip_spec_witness :
    (("x.py".toList, "repo/app/x.py".toList)
        ∈ extract_tarball ["repo/app/x.py".toList, "repo/lib/y".toList]
            (some "/app/".toList) 2) ∧
    isInfixCh "/app/".toList "repo/app/x.py".toList = true ∧
    "x.py".toList = stripName 2 "repo/app/x.py".toList ∧
    "x.py".toList = segmentsRemoved 2 "repo/app/x.py".toList := by
  refine ⟨by decide, ?_⟩
  have h := (extract_tarball_strip_spec ["repo/app/x.py".toList, "repo/lib/y".toList]
    "/app/".toList 2 "x.py".toList "repo/app/x.py".toList (by decide)).1 (by decide)
  exact ⟨h.1, h.2.1, h.2.2 (by decide)⟩

theorem envLine_isPrefixOf (k v : List Char) :
    (k ++ ['=']).isPrefixOf (envLine k v) = true := by
  have h : envLine k v = (k ++ ['=']) ++ (v ++ ['\n']) := by simp [envLine]
  rw [h]
  exact isPrefixOf_append_self _ _

theorem upsertLines_idem (k v : List Char) :
    ∀ lls, upsertLines k v (upsertLines k v lls) = upsertLines k v lls := by
  intro lls
  induction lls with
  | nil => simp [upsertLines, envLine_isPrefixOf]
  | cons l ls ih =>
    by_cases hp : (k ++ ['=']).isPrefixOf l = true
    · simp [upsertLines, hp, envLine_isPrefixOf]
    · simp [upsertLines, hp, ih]

theorem upsertLines_count (k v : List Char) :
    ∀ lls, lls.countP (fun l => (k ++ ['=']).isPrefixOf l) ≤ 1 →
      (upsertLines k v lls).countP (fun l => (k ++ ['=']).isPrefixOf l) = 1 := by
  intro lls
  induction lls with
  | nil => intro _; simp [upsertLines, List.countP_cons, envLine_isPrefixOf]
  | cons l ls ih =>
    intro h
    by_cases hp : (k ++ ['=']).isPrefixOf l = true
    · have hls : ls.countP (fun l2 => (k ++ ['=']).isPrefixOf l2) = 0 := by
        simp only [List.countP_cons, hp, eq_self_iff_true, if_true] at h
        omega
      have hupsert : upsertLines k v (l :: ls) = envLine k v :: ls := by
        simp [upsertLines, hp]
      rw [hupsert]
      simp only [List.countP_cons, envLine_isPrefixOf, eq_self_iff_true, if_true]
      omega
    · have hp2 : (k ++ ['=']).isPrefixOf l = false := Bool.eq_false_iff.mpr hp
      have hls : ls.countP (fun l2 => (k ++ ['=']).isPrefixOf l2) ≤ 1 := by
        simp only [List.countP_cons, hp2, Bool.false_eq_true, if_false, add_zero] at h
        exact h
      have hupsert : upsertLines k v (l :: ls) = l :: upsertLines k v ls := by
        simp [upsertLines, hp2]
      rw [hupsert]
      simp only [List.countP_cons, hp2, Bool.false_eq_true, if_false, add_zero]
      exact ih hls

theorem upsertLines_mem (k v : List Char) :
    ∀ lls s, s ∈ upsertLines k v lls → s ∈ lls ∨ s = envLine k v := by
  intro lls
  induction lls with
  | nil =>
    intro s hs
    simp [upsertLines] at hs
    exact Or.inr hs
  | cons l ls ih =>
    intro s hs
    by_cases hp : (k ++ ['=']).isPrefixOf l = true
    · simp [upsertLines, hp] at hs
      rcases hs with h | h
      · exact Or.inr h
      · exact Or.inl (by simp [h])
    · simp [upsertLines, hp] at hs
      rcases hs with h | h
      · exact Or.inl (by simp [h])
      · rcases ih s h with h2 | h2
        · exact Or.inl (by simp [h2])
        · exact Or.inr h2

theorem readlinesCh_ne_nil (c : Char) (cs : List Char) : readlinesCh (c :: cs) ≠ [] := by
  by_cases hc : c = '\n'
  · simp [readlinesCh, hc]
  · cases h : readlinesCh cs <;> simp [readlinesCh, hc, h]

theorem readlines_shape :
    ∀ b : List Char, ∀ s ∈ readlinesCh b, s ≠ [] ∧ ∀ c ∈ s.dropLast, c ≠ '\n' := by
  intro b
  induction b with
  | nil => intro s hs; simp [readlinesCh] at hs
  | cons c cs ih =>
    intro s hs
    by_cases hc : c = '\n'
    · have hr : readlinesCh (c :: cs) = ['\n'] :: readlinesCh cs := by simp [readlinesCh, hc]
      rw [hr] at hs
      rcases List.mem_cons.mp hs with h | h
      · subst h
        exact ⟨by simp, by simp⟩
      · exact ih s h
    · cases hcs : readlinesCh cs with
      | nil =>
        have hr : readlinesCh (c :: cs) = [[c]] := by simp [readlinesCh, hc, hcs]
        rw [hr] at hs
        simp at hs
        subst hs
        exact ⟨by simp, by simp⟩
      | cons t ts =>
        have hr : readlinesCh (c :: cs) = (c :: t) :: ts := by simp [readlinesCh, hc, hcs]
        rw [hr] at hs
        rcases List.mem_cons.mp hs with h | h
        · subst h
          have ht := ih t (by rw [hcs]; simp)
          obtain ⟨htne, htint⟩ := ht
          obtain ⟨u, us, rfl⟩ := List.exists_cons_of_ne_nil htne
          refine ⟨by simp, ?_⟩
          have hd : (c :: u :: us).dropLast = c :: (u :: us).dropLast := rfl
          rw [hd]
          intro ch hch
          rcases List.mem_cons.mp hch with h2 | h2
          · subst h2; exact hc
          · exact htint ch h2
        · exact ih s (by rw [hcs]; simp [h])

theorem readlines_ends :
    ∀ b : List Char, b.getLast? = some '\n' →
      ∀ s ∈ readlinesCh b, s.getLast? = some '\n' := by
  intro b
  induction b with
  | nil => intro h; simp at h
  | cons c cs ih =>
    intro h s hs
    cases cs with
    | nil =>
      simp at h
      have hr : readlinesCh [c] = [[c]] := by
        cases hr2 : readlinesCh ([] : List Char) <;> simp [readlinesCh, h]
      rw [hr] at hs
      simp at hs
      subst hs
      simp [h]
    | cons d ds =>
      have hlast : (d :: ds).getLast? = some '\n' := by
        rw [List.getLast?_cons_cons] at h
        exact h
      by_cases hc : c = '\n'
      · have hr : readlinesCh (c :: d :: ds) = ['\n'] :: readlinesCh (d :: ds) := by
          simp [readlinesCh, hc]
        rw [hr] at hs
        rcases List.mem_cons.mp hs with h2 | h2
        · subst h2; simp
        · exact ih hlast s h2
      · cases hcs : readlinesCh (d :: ds) with
        | nil => exact absurd hcs (readlinesCh_ne_nil d ds)
        | cons t ts =>
          have hr : readlinesCh (c :: d :: ds) = (c :: t) :: ts := by
            conv_lhs => rw [readlinesCh]
            rw [if_neg hc, hcs]
          rw [hr] at hs
          rcases List.mem_cons.mp hs with h2 | h2
          · subst h2
            have ht := ih hlast t (by rw [hcs]; simp)
            have htne : t ≠ [] := (readlines_shape (d :: ds) t (by rw [hcs]; simp)).1
            obtain ⟨u, us, rfl⟩ := List.exists_cons_of_ne_nil htne
            rw [List.getLast?_cons_cons]
            exact ht
          · exact ih hlast s (by rw [hcs]; simp [h2])

theorem readlines_line :
    ∀ (s tail : List Char), s ≠ [] → (∀ c ∈ s.dropLast, c ≠ '\n') →
      s.getLast? = some '\n' →
      readlinesCh (s ++ tail) = s :: readlinesCh tail := by
  intro s
  induction s with
  | nil => intro tail h1 _ _; exact absurd rfl h1
  | cons c cs ih =>
    intro tail _ h2 h3
    cases cs with
    | nil =>
      simp at h3
      have hr : readlinesCh (c :: tail) = ['\n'] :: readlinesCh tail := by
        simp [readlinesCh, h3]
      rw [List.cons_append, List.nil_append, hr, h3]
    | cons d ds =>
      have hc : c ≠ '\n' := h2 c (by simp [List.dropLast])
      have hcs2 : ∀ ch ∈ (d :: ds).dropLast, ch ≠ '\n' := by
        intro ch hch
        exact h2 ch (by simp [List.dropLast, hch])
      have hcs3 : (d :: ds).getLast? = some '\n' := by
        rw [List.getLast?_cons_cons] at h3
        exact h3
      have hih := ih tail (by simp) hcs2 hcs3
      have hstep : readlinesCh (c :: ((d :: ds) ++ tail))
          = match readlinesCh ((d :: ds) ++ tail) with
            | [] => [[c]]
            | t :: ts => (c :: t) :: ts := by
        conv_lhs => rw [readlinesCh]
        rw [if_neg hc]
      rw [List.cons_append, hstep, hih]

theorem readlinesCh_flatten :
    ∀ lls : List (List Char),
      (∀ s ∈ lls, s ≠ [] ∧ (∀ c ∈ s.dropLast, c ≠ '\n') ∧ s.getLast? = some '\n') →
      readlinesCh lls.flatten = lls := by
  intro lls
  induction lls with
  | nil => intro _; rfl
  | cons s rest ih =>
    intro h
    obtain ⟨h1, h2, h3⟩ := h s (by simp)
    rw [List.flatten_cons, readlines_line s rest.flatten h1 h2 h3,
      ih (fun s2 hs2 => h s2 (by simp [hs2]))]

theorem envLine_good (k v : List Char) (hk : '\n' ∉ k) (hv : '\n' ∉ v) :
    envLine k v ≠ [] ∧ (∀ c ∈ (envLine k v).dropLast, c ≠ '\n') ∧
      (envLine k v).getLast? = some '\n' := by
  have heq : envLine k v = (k ++ '=' :: v) ++ ['\n'] := by simp [envLine]
  refine ⟨by simp [heq], ?_, ?_⟩
  · rw [heq, List.dropLast_concat]
    intro c hc
    rcases List.mem_append.mp hc with h | h
    · exact fun he => hk (he ▸ h)
    · rcases List.mem_cons.mp h with h2 | h2
      · subst h2; decide
      · exact fun he => hv (he ▸ h2)
  · rw [heq, List.getLast?_concat]

theorem readlines_update (k v b : List Char) (hk : '\n' ∉ k) (hv : '\n' ∉ v)
    (hb : b = [] ∨ b.getLast? = some '\n') :
    readlinesCh (update_env_file k v b) = upsertLines k v (readlinesCh b) := by
  unfold update_env_file
  apply readlinesCh_flatten
  intro s hs
  rcases upsertLines_mem k v (readlinesCh b) s hs with h | h
  · rcases hb with hb | hb
    · subst hb
      simp [readlinesCh] at h
    · have hsh := readlines_shape b s h
      exact ⟨hsh.1, hsh.2, readlines_ends b hb s h⟩
  · subst h
    exact envLine_good k v hk hv

/-- Counterexample for C4, refuting both universally quantified parts of the
claim: (1) starting from `A=1\nA=2\n` (two lines for key `A`), upserting
`A=3` twice leaves two lines for `A` — the loop replaces only the first
matching line and `break`s, so "exactly one line for that key" fails, as
does "at most one line after any single upsert"; (2) starting from `A=1`
(no trailing newline), upserting `B=2` twice is not byte-idempotent: the
appended line merges into the unterminated last line on re-read
(`A=1B=2\n`), so the second call appends `B=2\n` again. -/
theorem update_env_file_counterexample :
    (keyLineCount "A".toList
        (update_env_file "A".toList "3".toList
          (update_env_file "A".toList "3".toList "A=1\nA=2\n".toList)) ≠ 1) ∧
    (update_env_file "B".toList "2".toList
        (update_env_file "B".toList "2".toList "A=1".toList)
      ≠ update_env_file "B".toList "2".toList "A=1".toList) := by
  constructor
  · decide
  · decide

/-- C4 (amended): `update_env_file` replaces only the first line starting
with `key=` (later duplicates are untouched) and appends `key=value` when no
line matches.  Provided the key and value contain no newline and the
starting file is empty or newline-terminated, upserting the same key/value
twice is byte-idempotent (the second call leaves the file bytes unchanged),
and if the starting file has at most one line for the key, the file has
exactly one line for that key after the upsert. -/
theorem update_env_file_idempotent_spec (k v b : List Char)
    (hk : '\n' ∉ k) (hv : '\n' ∉ v) (hb : b = [] ∨ b.getLast? = some '\n') :
    update_env_file k v (update_env_file k v b) = update_env_file k v b ∧
    (keyLineCount k b ≤ 1 → keyLineCount k (update_env_file k v b) = 1) := by
  have hrt := readlines_update k v b hk hv hb
  constructor
  · show (upsertLines k v (readlinesCh (update_env_file k v b))).flatten = _
    rw [hrt, upsertLines_idem]
    rfl
  · intro hcount
    unfold keyLineCount
    rw [hrt]
    exact upsertLines_count k v (readlinesCh b) hcount

/-- Witness for C4 at key `VERSION`, value `1.0` and the newline-terminated
starting file `WB_AUTH=True\n` (which has no line for the key). -/
theorem update_env_file_idempotent_spec_witness :
    (update_env_file "VERSION".toList "1.0".toList
        (update_env_file "VERSION".toList "1.0".toList "WB_AUTH=True\n".toList)
      = update_env_file "VERSION".toList "1.0".toList "WB_AUTH=True\n".toList) ∧
    keyLineCount "VERSION".toList
      (update_env_file "VERSION".toList "1.0".toList "WB_AUTH=True\n".toList) = 1 := by
  have h := update_env_file_idempotent_spec "VERSION".toList "1.0".toList
    "WB_AUTH=True\n".toList (by decide) (by decide) (Or.inr (by decide))
  exact ⟨h.1, h.2 (by decide)⟩
